import Mathlib

/-!
Verification development for the Gitlepy repository engine
(`src/gitlepy/repository.py`).

The Python source is shallowly embedded: the repository's persistent
filesystem state (blob store, commit store, branch ref files, HEAD file,
index file, working directory) becomes an explicit `RepoState` record,
and every repository operation becomes a function from `RepoState` to a
result record carrying the new state, the lines printed, and an outcome
(normal return, `SystemExit`, or an uncaught Python exception).

Files are modelled as strings of characters; `pathlib`'s text-mode reads
perform universal-newline translation, modelled by `univNL`.  `filecmp.cmp`
is modelled as content equality.  Dictionaries (Python `dict`) are modelled
as association lists with insertion-order-preserving update (`dinsert`),
which matches `dict` iteration-order semantics.

The classes `Blob`, `Commit` and `Index` live in modules that are not part
of the sources at hand (`blob.py`, `commit.py`, `index.py`); they are
modelled from the specification's data-model section, as marked on each
definition.
-/

namespace Gitlepy

/-- Association list with string keys, modelling a Python `dict`
(or a directory of files keyed by file name). -/
abbrev Assoc (β : Type) := List (String × β)

/-- `dict` lookup: first entry with the given key. -/
def dget {β : Type} : Assoc β → String → Option β
  | [], _ => none
  | (k', v) :: rest, k => if k' = k then some v else dget rest k

/-- `dict` insertion/update: overwrites in place (keeping position) if the
key is present, else appends at the end — Python `dict` order semantics. -/
def dinsert {β : Type} : Assoc β → String → β → Assoc β
  | [], k, v => [(k, v)]
  | (k', v') :: rest, k, v =>
      if k' = k then (k, v) :: rest else (k', v') :: dinsert rest k v

/-- `dict.pop(k, None)` / file deletion: removes entries with the key. -/
def dpop {β : Type} (m : Assoc β) (k : String) : Assoc β :=
  m.filter (fun p => p.1 ≠ k)

/-- The key list of a dictionary (`dict.keys()` in insertion order). -/
def keysOf {β : Type} (m : Assoc β) : List String :=
  m.map Prod.fst

theorem dget_nil {β : Type} (k : String) : dget ([] : Assoc β) k = none := rfl

theorem dget_cons_self {β : Type} (k : String) (v : β) (t : Assoc β) :
    dget ((k, v) :: t) k = some v := by
  simp [dget]

theorem dinsert_nil {β : Type} (k : String) (v : β) :
    dinsert ([] : Assoc β) k v = [(k, v)] := rfl

theorem dinsert_cons_same {β : Type} (k : String) (v v' : β) (t : Assoc β) :
    dinsert ((k, v) :: t) k v' = (k, v') :: t := by
  simp [dinsert]

theorem dget_dinsert {β : Type} (m : Assoc β) (k : String) (v : β) :
    dget (dinsert m k v) k = some v := by
  induction m with
  | nil => simp [dinsert, dget]
  | cons hd tl ih =>
      by_cases h : hd.1 = k
      · simp [dinsert, h, dget]
      · simp [dinsert, h, dget, ih]

theorem dget_dinsert_ne {β : Type} (m : Assoc β) {k k' : String} (v : β)
    (h : k' ≠ k) : dget (dinsert m k' v) k = dget m k := by
  induction m with
  | nil => simp [dinsert, dget, h]
  | cons hd tl ih =>
      obtain ⟨a, b⟩ := hd
      by_cases hh : a = k'
      · subst hh
        simp [dinsert, dget, h, ih]
      · simp [dinsert, hh, dget, ih]

theorem dget_some_mem_keys {β : Type} {m : Assoc β} {k : String} {v : β}
    (h : dget m k = some v) : k ∈ keysOf m := by
  induction m with
  | nil => simp [dget] at h
  | cons hd tl ih =>
      by_cases hh : hd.1 = k
      · simp [keysOf, hh.symm]
      · simp only [dget, hh, if_false] at h
        simp [keysOf] at ih ⊢
        right
        simpa [keysOf] using ih h

theorem mem_keys_dget_isSome {β : Type} {m : Assoc β} {k : String}
    (h : k ∈ keysOf m) : (dget m k).isSome := by
  induction m with
  | nil => simp [keysOf] at h
  | cons hd tl ih =>
      by_cases hh : hd.1 = k
      · simp [dget, hh]
      · simp only [keysOf, List.map_cons, List.mem_cons] at h
        rcases h with h | h
        · exact absurd h.symm hh
        · simpa [dget, hh] using ih (by simpa [keysOf] using h)

/-- Universal-newline translation on a character list: `"\r\n"` and a lone
`"\r"` both become `"\n"`.  This is what Python text-mode `read_text` /
`open()` (mode `"r"`) does to file contents. -/
def univNLAux : List Char → List Char
  | [] => []
  | [c] => if c = '\r' then ['\n'] else [c]
  | c :: d :: rest =>
      if c = '\r' then
        if d = '\n' then '\n' :: univNLAux rest
        else '\n' :: univNLAux (d :: rest)
      else c :: univNLAux (d :: rest)

/-- Universal-newline translation of a file's content (text-mode read). -/
def univNL (s : String) : String :=
  String.mk (univNLAux s.data)

theorem univNLAux_of_no_cr (l : List Char) (h : ∀ c ∈ l, c ≠ '\r') :
    univNLAux l = l := by
  induction l with
  | nil => rfl
  | cons c rest ih =>
      have hc : c ≠ '\r' := h c (by simp)
      have hrest : ∀ x ∈ rest, x ≠ '\r' := fun x hx => h x (by simp [hx])
      cases rest with
      | nil => simp [univNLAux, hc]
      | cons d rest' => simp [univNLAux, hc, ih hrest]

theorem univNL_of_no_cr (s : String) (h : ∀ c ∈ s.data, c ≠ '\r') :
    univNL s = s := by
  cases s with
  | mk data => simp [univNL, univNLAux_of_no_cr data h]

/-- Splits a string into its lines, each line keeping its trailing
newline character (as successive Python `readline` calls produce).
The accumulator holds the current line's characters in reverse. -/
def splitLinesAux : List Char → List Char → List String
  | [], [] => []
  | [], acc => [String.mk acc.reverse]
  | c :: rest, acc =>
      if c = '\n' then String.mk (acc.reverse ++ ['\n']) :: splitLinesAux rest []
      else splitLinesAux rest (c :: acc)

/-- The line sequence of a text file's content. -/
def splitLines (s : String) : List String :=
  splitLinesAux s.data []

/-- Python string `<`: lexicographic comparison of code points. -/
def lexLt : List Char → List Char → Bool
  | [], [] => false
  | [], _ :: _ => true
  | _ :: _, [] => false
  | a :: as, b :: bs =>
      if a.toNat < b.toNat then true
      else if b.toNat < a.toNat then false
      else lexLt as bs

/-- Python string `<` on `String`. -/
def strLt (a b : String) : Bool := lexLt a.data b.data

/-- Stable insertion into an ascending list (helper for `sortLines`). -/
def insertSorted (x : String) : List String → List String
  | [] => [x]
  | y :: ys => if strLt y x then y :: insertSorted x ys else x :: y :: ys

/-- Python `sorted` on a list of lines: ascending by code-point order.
Used by `Repo._binsearch_lines` to sort the remaining target lines. -/
def sortLines : List String → List String
  | [] => []
  | x :: xs => insertSorted x (sortLines xs)

/-- `Repo._binsearch`: the source's recursive binary search for `line` in
`allLines` (which the caller sorts), translated slice for slice:
`mid = (len - 1) // 2`, equality hit returns `True`, `<` recurses into the
left slice, `>` into the right slice, empty slice returns `False`. -/
def binsearch (line : String) (allLines : List String) : Bool :=
  if h : allLines.length = 0 then false
  else
    let mid := (allLines.length - 1) / 2
    let v := allLines.getD mid ""
    if line = v then true
    else if strLt line v then binsearch line (allLines.take mid)
    else binsearch line (allLines.drop (mid + 1))
termination_by allLines.length
decreasing_by
  · have h1 : 0 < allLines.length := Nat.pos_of_ne_zero h
    have h2 : (allLines.length - 1) / 2 < allLines.length :=
      Nat.lt_of_le_of_lt (Nat.div_le_self _ _) (by omega)
    simp only [List.length_take]
    omega
  · have h1 : 0 < allLines.length := Nat.pos_of_ne_zero h
    simp only [List.length_drop]
    omega

theorem binsearch_true_mem {line : String} {l : List String}
    (h : binsearch line l = true) : line ∈ l := by
  by_cases h0 : l.length = 0
  · rw [binsearch] at h
    simp [h0] at h
  · rw [binsearch] at h
    simp only [h0, dite_false] at h
    set mid := (l.length - 1) / 2 with hmid
    have hmlt : mid < l.length :=
      Nat.lt_of_le_of_lt (Nat.div_le_self _ _) (by omega)
    by_cases he : line = l.getD mid ""
    · rw [he, List.getD_eq_getElem _ _ hmlt]
      exact List.getElem_mem _
    · simp only [he, if_false] at h
      by_cases hlt : strLt line (l.getD mid "") = true
      · simp only [hlt, if_true] at h
        exact List.mem_of_mem_take (binsearch_true_mem h)
      · simp only [hlt, if_false] at h
        exact List.mem_of_mem_drop (binsearch_true_mem h)
termination_by l.length
decreasing_by
  · simp only [List.length_take]
    omega
  · simp only [List.length_drop]
    omega

/-- Conflict-marker head line written by `Repo._write_conflict`. -/
def startDiff : String := "<<<<<<< HEAD\n"

/-- Conflict-marker separator line written by `Repo._write_conflict`. -/
def midDiff : String := "=======\n"

/-- Conflict-marker trailing line of `Repo._write_conflict`, naming the
target commit id. -/
def endDiff (cid : String) : String := ">>>>>>> " ++ cid ++ "\n"

/-- `Repo._write_conflict`, translated onto the two files' line sequences
(the first list is the head file, the second the target blob, both already
read in text mode).  The output is the sequence of strings the source
writes to the temporary file; the merged file content is their
concatenation.

The source works with `readline`/`seek`/`tell` over the two file handles;
positions are rendered here as list suffixes.  Case for case:
* both lines exist and are equal: copy the line;
* unequal: scan the rest of the target file for the current head line;
  if found at index `k` of the remainder, emit a conflict block whose head
  side is empty and whose target side is the skipped target lines, and
  realign there;
* otherwise scan the remaining head lines, in order, for one that
  `_binsearch` finds in the sorted remaining target lines; if found at
  index `j`, emit a conflict block with the head lines before the match on
  the head side and the target lines before the first occurrence of the
  matched line on the target side, and realign;
* otherwise emit one final block with everything remaining on both sides;
* one side exhausted: leftover head lines are copied verbatim; leftover
  target lines hit the source's trailing loop, which (reading from `f1`,
  the already-exhausted head file) emits a conflict block containing only
  the first leftover target line. -/
def writeConflict (cid : String) : List String → List String → List String
  | [], [] => []
  | x :: xs, [] => x :: xs
  | [], y :: _ => [startDiff, midDiff, y, endDiff cid]
  | x :: xs, y :: ys =>
      if x = y then x :: writeConflict cid xs ys
      else if x ∈ ys then
        let k := ys.indexOf x
        startDiff :: midDiff :: ((y :: ys.take k) ++
          endDiff cid :: writeConflict cid (x :: xs) (ys.drop k))
      else
        match xs.findIdx? (fun a => binsearch a (sortLines ys)) with
        | some j =>
            let line1 := xs.getD j ""
            let m := (y :: ys).indexOf line1
            startDiff :: ((x :: xs.take j) ++
              midDiff :: ((y :: ys).take m ++
                endDiff cid :: writeConflict cid (xs.drop j) ((y :: ys).drop m)))
        | none =>
            startDiff :: ((x :: xs) ++ midDiff :: ((y :: ys) ++ [endDiff cid]))
termination_by l1 l2 => l1.length + l2.length
decreasing_by
  · simp
    omega
  · have : (ys.drop (ys.indexOf x)).length ≤ ys.length := by
      simp [List.length_drop]
    simp only [List.length_cons]
    omega
  · have h1 : (xs.drop j).length ≤ xs.length := by simp [List.length_drop]
    have h2 : ((y :: ys).drop ((y :: ys).indexOf (xs.getD j ""))).length ≤
        (y :: ys).length := by simp [List.length_drop]
    simp only [List.length_cons] at h2 ⊢
    omega

/-- Modelled from the spec: the `Index` class (`index.py` is not among the
sources).  §4.2: a mapping of filename to blob id for staged additions and
a set of filenames staged for removal. -/
structure Index where
  additions : Assoc String
  removals : List String
deriving DecidableEq

/-- Modelled from the spec: `Index.stage` adds/overwrites an addition
entry; a removal mark for the filename is cleared. -/
def Index.stage (i : Index) (filename blobId : String) : Index :=
  ⟨dinsert i.additions filename blobId, i.removals.filter (· ≠ filename)⟩

/-- Modelled from the spec: `Index.unstage` removes an addition entry
(no-op if absent). -/
def Index.unstage (i : Index) (filename : String) : Index :=
  ⟨i.additions.filter (fun p => p.1 ≠ filename), i.removals⟩

/-- Modelled from the spec: `Index.remove` removes any addition entry for
the filename and marks it for removal. -/
def Index.removeEntry (i : Index) (filename : String) : Index :=
  ⟨i.additions.filter (fun p => p.1 ≠ filename),
   if filename ∈ i.removals then i.removals else i.removals ++ [filename]⟩

/-- Modelled from the spec: `Index.clear` empties both sets. -/
def Index.clearAll : Index := ⟨[], []⟩

/-- Modelled from the spec: `Index.is_staged`, membership in the staged
additions. -/
def Index.isStaged (i : Index) (filename : String) : Bool :=
  (dget i.additions filename).isSome

/-- Modelled from the spec: the `Commit` class (`commit.py` is not among
the sources).  §3: message, primary parent id (empty for the root commit),
optional secondary parent id (empty when absent, as the source tests it by
truthiness), and the filename-to-blob-id mapping. -/
structure Commit where
  parentOne : String
  parentTwo : String
  message : String
  blobs : Assoc String
deriving DecidableEq

/-- Modelled from the spec: a commit's identity is a deterministic hash of
its logical fields (the timestamp is not modelled; the hash is modelled as
an injective encoding of parent ids and message — the source computes the
id in the constructor, before the blob mapping is filled in). -/
def mkCommitId (parent message mergeParent : String) : String :=
  "#" ++ parent ++ "|" ++ message ++ "|" ++ mergeParent

/-- The repository's persistent state: blob files (`.gitlepy/blobs`),
commit files (`.gitlepy/commits`), branch ref files (`.gitlepy/refs`),
the HEAD file, the index file, and the working directory's files. -/
structure RepoState where
  blobs : Assoc String
  commits : Assoc Commit
  branches : Assoc String
  headBranch : String
  index : Index
  workdir : Assoc String
deriving DecidableEq

/-- How a repository operation ends: a normal return, `SystemExit(0)` /
`SystemExit(1)`, or an uncaught Python exception (`AssertionError`,
`UnboundLocalError`, a file-system error such as `FileNotFoundError` or
`KeyError`). -/
inductive Outcome
  | ok
  | exit0
  | exit1
  | assertError
  | nameError
  | fileError
deriving DecidableEq

/-- Result of running an operation: the state left behind (mutations made
before a crash persist), the lines printed, and the outcome. -/
structure R where
  st : RepoState
  out : List String
  oc : Outcome
deriving DecidableEq

/-- Sequencing of operations: a non-`ok` outcome propagates (a raised
exception skips the rest of the caller). -/
def andThen (r : R) (f : RepoState → R) : R :=
  match r.oc with
  | .ok => let r2 := f r.st; ⟨r2.st, r.out ++ r2.out, r2.oc⟩
  | _ => r

/-- `Repo.branches`: the branch names (ref file names). -/
def branchNames (s : RepoState) : List String := keysOf s.branches

/-- `Repo.commits`: the stored commit ids (commit file names). -/
def commitIds (s : RepoState) : List String := keysOf s.commits

/-- `Repo.current_branch`: the content of the HEAD file. -/
def currentBranch (s : RepoState) : String := s.headBranch

/-- `Repo.head_commit_id`: reads the current branch's ref file; a missing
ref file would raise `FileNotFoundError`. -/
def headCommitId (s : RepoState) : Option String :=
  dget s.branches s.headBranch

/-- `Repo.get_branch_head`: asserts the branch exists, then reads its ref
file.  A failing `assert` raises `AssertionError`. -/
def getBranchHead (s : RepoState) (branch : String) : Except Outcome String :=
  match dget s.branches branch with
  | some cid => .ok cid
  | none => .error .assertError

/-- `Repo.load_commit`: a missing commit file raises `SystemExit(1)`. -/
def loadCommit (s : RepoState) (cid : String) : Except Outcome Commit :=
  match dget s.commits cid with
  | some c => .ok c
  | none => .error .exit1

/-- `Repo.get_blobs`: blob mapping of the commit with the given id. -/
def getBlobs (s : RepoState) (cid : String) : Except Outcome (Assoc String) :=
  (loadCommit s cid).map Commit.blobs

/-- Python `str.startswith`, on the underlying character lists. -/
def startsWithStr (s pre : String) : Bool :=
  pre.data.isPrefixOf s.data

/-- `Repo.working_files`: non-hidden files of the working directory. -/
def workingFiles (s : RepoState) : List String :=
  (keysOf s.workdir).filter (fun f => ¬ startsWithStr f ".")

/-- `Repo._cmp_blobs`: `filecmp.cmp` of the working file against the blob
file, modelled as content equality; a missing file raises. -/
def cmpBlobs (s : RepoState) (filename blobId : String) : Except Outcome Bool :=
  match dget s.workdir filename, dget s.blobs blobId with
  | some a, some b => .ok (a = b)
  | _, _ => .error .fileError

/-- `Repo._unstaged_deletion`: deleted but not staged for removal. -/
def unstagedDeletion (filename : String) (wf : List String) (i : Index) : Bool :=
  filename ∉ wf ∧ filename ∉ i.removals

/-- `Repo._diff_from_staged`: modified since staged (the `KeyError` branch
returns `False` for files that are not staged). -/
def diffFromStaged (s : RepoState) (filename : String) (i : Index) :
    Except Outcome Bool :=
  match dget i.additions filename with
  | some bid => (cmpBlobs s filename bid).map (!·)
  | none => .ok false

/-- `Repo._unstaged_tracked_modification`: tracked, not staged, and
modified. -/
def unstagedTrackedMod (s : RepoState) (filename : String) (i : Index)
    (tracked : Assoc String) : Except Outcome Bool :=
  if (dget i.additions filename).isSome then .ok false
  else
    match dget tracked filename with
    | some bid => (cmpBlobs s filename bid).map (!·)
    | none => .error .fileError

/-- First loop of `Repo.unstaged_modifications`: over the tracked files. -/
def umLoop1 (s : RepoState) (wf : List String) (tracked : Assoc String)
    (i : Index) : List String → Except Outcome (List String)
  | [] => .ok []
  | f :: rest => do
      let hd ←
        if unstagedDeletion f wf i then pure [f ++ " (deleted)"]
        else if f ∈ wf then do
          let d ← diffFromStaged s f i
          if d then pure [f ++ " (modified)"]
          else do
            let u ← unstagedTrackedMod s f i tracked
            if u then pure [f ++ " (modified)"] else pure []
        else pure []
      let tail ← umLoop1 s wf tracked i rest
      pure (hd ++ tail)

/-- Second loop of `Repo.unstaged_modifications`: over files staged for
addition but untracked. -/
def umLoop2 (s : RepoState) (wf : List String) (i : Index) :
    List String → Except Outcome (List String)
  | [] => .ok []
  | f :: rest => do
      let hd ←
        if f ∉ wf then pure [f ++ " (deleted)"]
        else do
          let c ← cmpBlobs s f ((dget i.additions f).getD "")
          if c then pure [] else pure [f ++ " (modified)"]
      let tail ← umLoop2 s wf i rest
      pure (hd ++ tail)

/-- `Repo.unstaged_modifications`: tracked-or-staged files whose working
copy was modified or deleted without being staged, sorted. -/
def unstagedModifications (s : RepoState) : Except Outcome (List String) := do
  let wf := workingFiles s
  match headCommitId s with
  | none => .error .fileError
  | some hid => do
      let tracked ← getBlobs s hid
      let i := s.index
      let l1 ← umLoop1 s wf tracked i (keysOf tracked)
      let l2 ← umLoop2 s wf i
        ((keysOf i.additions).filter (fun f => f ∉ keysOf tracked))
      pure (sortLines (l1 ++ l2))

/-- `Repo.update_branch_head`: writes the branch's ref file. -/
def updateBranchHead (s : RepoState) (branch cid : String) : RepoState :=
  { s with branches := dinsert s.branches branch cid }

/-- `Repo.new_commit`: the root commit (empty parent) is saved immediately;
otherwise the operation fails with `SystemExit(0)` if nothing is staged,
builds the blob mapping from the parent's with removals dropped and
additions applied, clears the index, saves the commit, and advances the
current branch's head. -/
def newCommit (s : RepoState) (parent message mergeParent : String) : R :=
  let cid := mkCommitId parent message mergeParent
  if parent = "" then
    ⟨updateBranchHead
        { s with commits := dinsert s.commits cid ⟨parent, mergeParent, message, []⟩ }
        (currentBranch s) cid,
      [], .ok⟩
  else
    let i := s.index
    if i.additions = [] ∧ i.removals = [] then
      ⟨s, ["No changes staged for commit."], .exit0⟩
    else
      match getBlobs s parent with
      | .error e => ⟨s, [], e⟩
      | .ok parentBlobs =>
          let blobs1 := i.removals.foldl (fun b k => dpop b k) parentBlobs
          let blobs2 := i.additions.foldl (fun b kv => dinsert b kv.1 kv.2) blobs1
          ⟨updateBranchHead
              { s with
                index := Index.clearAll,
                commits := dinsert s.commits cid ⟨parent, mergeParent, message, blobs2⟩ }
              (currentBranch s) cid,
            [], .ok⟩

/-- `Repo.add`: stages a working file; unchanged-vs-HEAD content is not
staged (and is unstaged if it was staged); identically staged content is
reported; otherwise the file is staged and its blob persisted.  The blob
id is the content hash, modelled as the content itself. -/
def add (s : RepoState) (filename : String) : R :=
  match dget s.workdir filename with
  | none => ⟨s, [], .fileError⟩
  | some content =>
      let blobId := content
      let i := s.index
      match headCommitId s with
      | none => ⟨s, [], .fileError⟩
      | some hid =>
          match loadCommit s hid with
          | .error e => ⟨s, [], e⟩
          | .ok headCommit =>
              if dget headCommit.blobs filename = some blobId then
                if i.isStaged filename then
                  ⟨{ s with index := i.unstage filename }, [], .ok⟩
                else ⟨s, ["No changes have been made to that file."], .ok⟩
              else if dget i.additions filename = some blobId then
                ⟨s, ["File is already staged in present state."], .ok⟩
              else
                ⟨{ s with
                    index := i.stage filename blobId,
                    blobs := dinsert s.blobs blobId content }, [], .ok⟩

/-- `Repo.remove`: reports a file already staged for removal; unstages a
staged file; stages a tracked file for removal and deletes the working
copy; otherwise reports nothing to remove. -/
def removeOp (s : RepoState) (filename : String) : R :=
  let i := s.index
  if filename ∈ i.removals then
    ⟨s, ["That file is already staged for removal."], .ok⟩
  else
    match headCommitId s with
    | none => ⟨s, [], .fileError⟩
    | some hid =>
        match getBlobs s hid with
        | .error e => ⟨s, [], e⟩
        | .ok trackedBlobs =>
            if (dget i.additions filename).isSome then
              ⟨{ s with index := i.unstage filename }, [], .ok⟩
            else if filename ∈ keysOf trackedBlobs then
              let s1 := { s with index := i.removeEntry filename }
              if (dget s1.workdir filename).isSome then
                ⟨{ s1 with workdir := dpop s1.workdir filename }, [], .ok⟩
              else ⟨s1, [], .ok⟩
            else ⟨s, ["No reason to remove the file."], .ok⟩

/-- Result of `Repo._match_commit_id`. -/
inductive MatchRes
  | found (cid : String)
  | ambiguous
  | noMatch
deriving DecidableEq

/-- `Repo._match_commit_id`: exact match, else unique-prefix match for
abbreviations shorter than 40 characters; more than one match is
ambiguous (printed by the caller side of the model, `SystemExit(0)`). -/
def matchCommitId (s : RepoState) (target : String) : MatchRes :=
  if target ∈ commitIds s then .found target
  else if target.length < 40 then
    let ms := (commitIds s).filter (fun id => startsWithStr id target)
    if ms.length > 1 then .ambiguous
    else
      match ms with
      | [m] => .found m
      | _ => .noMatch
  else .noMatch

/-- Write step of `Repo.checkout_file`, shared by its two entry paths:
validates that the commit tracks the file, then overwrites the working
copy with the blob's text-mode content. -/
def checkoutFileWrite (s : RepoState) (commit : Commit) (filename : String) : R :=
  match dget commit.blobs filename with
  | none => ⟨s, [filename ++ " is not a valid file."], .ok⟩
  | some bid =>
      match dget s.blobs bid with
      | none => ⟨s, [], .fileError⟩
      | some bc =>
          ⟨{ s with workdir := dinsert s.workdir filename (univNL bc) }, [], .ok⟩

/-- `Repo.checkout_file`: from HEAD when `target` is empty, else from the
commit the target string resolves to.  When the target resolves to no
commit the source prints the invalid-commit message but then falls
through to `commit.blobs` with `commit` unbound, raising
`UnboundLocalError`. -/
def checkoutFile (s : RepoState) (filename target : String) : R :=
  if target = "" then
    match headCommitId s with
    | none => ⟨s, [], .fileError⟩
    | some hid =>
        match loadCommit s hid with
        | .error e => ⟨s, [], e⟩
        | .ok commit => checkoutFileWrite s commit filename
  else
    match matchCommitId s target with
    | .ambiguous => ⟨s, ["Ambiguous commit abbreviation."], .exit0⟩
    | .noMatch => ⟨s, [target ++ " is not a valid commit."], .nameError⟩
    | .found cid =>
        match loadCommit s cid with
        | .error e => ⟨s, [], e⟩
        | .ok commit => checkoutFileWrite s commit filename

/-- The deletion loop of `Repo._checkout_commit`: `unlink` each file, in
order; a missing file raises (`False` result), leaving earlier deletions
in place. -/
def unlinkAll : Assoc String → List String → Assoc String × Bool
  | wd, [] => (wd, true)
  | wd, f :: rest =>
      if (dget wd f).isSome then unlinkAll (dpop wd f) rest else (wd, false)

/-- The write loop of `Repo._checkout_commit`: write each target blob's
text-mode content to the working directory; a missing blob file raises
(`False` result), leaving earlier writes in place. -/
def writeAllB (bs : Assoc String) : Assoc String → List (String × String) →
    Assoc String × Bool
  | wd, [] => (wd, true)
  | wd, (f, bid) :: rest =>
      match dget bs bid with
      | some bc => writeAllB bs (dinsert wd f (univNL bc)) rest
      | none => (wd, false)

/-- `Repo._checkout_commit`: deletes files tracked by the old commit and
absent from the target, writes the target's files, moves the current
branch's head to the target commit, and clears the index. -/
def checkoutCommit (s : RepoState) (oldHeadId targetId : String) : R :=
  match getBlobs s targetId with
  | .error e => ⟨s, [], e⟩
  | .ok targetBlobs =>
      match getBlobs s oldHeadId with
      | .error e => ⟨s, [], e⟩
      | .ok currentBlobs =>
          let toDelete :=
            (keysOf currentBlobs).filter (fun f => f ∉ keysOf targetBlobs)
          match unlinkAll s.workdir toDelete with
          | (wd1, false) => ⟨{ s with workdir := wd1 }, [], .fileError⟩
          | (wd1, true) =>
              match writeAllB s.blobs wd1 targetBlobs with
              | (wd2, false) => ⟨{ s with workdir := wd2 }, [], .fileError⟩
              | (wd2, true) =>
                  ⟨updateBranchHead
                      { s with workdir := wd2, index := Index.clearAll }
                      (currentBranch s) targetId,
                    [], .ok⟩

/-- `Repo.checkout_branch`: the invalid-branch check prints its message
but does not return (the source lacks a `return` there), so the operation
continues: HEAD is rewritten to the target name and `get_branch_head`
then fails its assertion for a nonexistent branch — after the mutation. -/
def checkoutBranch (s : RepoState) (target : String) : R :=
  let pre :=
    if target ∈ branchNames s then ([] : List String)
    else [target ++ " is not a valid branch name."]
  if target = currentBranch s then
    ⟨s, pre ++ ["Already on '" ++ target ++ "'"], .ok⟩
  else
    match unstagedModifications s with
    | .error e => ⟨s, pre, e⟩
    | .ok mods =>
        if mods ≠ [] then
          ⟨s, pre ++
            ["There are unstaged modifications in the way; stage and commit them."],
            .ok⟩
        else
          match headCommitId s with
          | none => ⟨s, pre, .fileError⟩
          | some oldHead =>
              let s1 := { s with headBranch := target }
              match getBranchHead s1 target with
              | .error e => ⟨s1, pre, e⟩
              | .ok tgtHead =>
                  let r := checkoutCommit s1 oldHead tgtHead
                  ⟨r.st, pre ++ r.out, r.oc⟩

/-- `Repo.reset`: resolves the target commit (abbreviations allowed),
checks it out, and moves the current branch's ref to it. -/
def resetOp (s : RepoState) (targetId : String) : R :=
  match matchCommitId s targetId with
  | .ambiguous => ⟨s, ["Ambiguous commit abbreviation."], .exit0⟩
  | .noMatch => ⟨s, ["No commit with that id exists."], .ok⟩
  | .found cid =>
      match headCommitId s with
      | none => ⟨s, [], .fileError⟩
      | some hid =>
          let r := checkoutCommit s hid cid
          andThen r (fun st =>
            ⟨updateBranchHead st (currentBranch st) cid, [], .ok⟩)

theorem length_filter_le_of_imp {l : List String} {p q : String → Bool}
    (himp : ∀ x, q x = true → p x = true) :
    (l.filter q).length ≤ (l.filter p).length := by
  induction l with
  | nil => simp
  | cons a t ih =>
      by_cases hq : q a = true
      · simp [List.filter, hq, himp a hq]
        omega
      · simp only [List.filter, hq]
        by_cases hp : p a = true
        · simp [hp]
          omega
        · simp only [Bool.not_eq_true] at hq hp
          simp [hq, hp, ih]

theorem length_filter_lt_of_imp {l : List String} {p q : String → Bool}
    (himp : ∀ x, q x = true → p x = true) {x : String} (hx : x ∈ l)
    (hpx : p x = true) (hqx : q x = false) :
    (l.filter q).length < (l.filter p).length := by
  induction l with
  | nil => simp at hx
  | cons a t ih =>
      rcases List.mem_cons.mp hx with h | h
      · subst h
        simp [List.filter, hpx, hqx]
        calc (t.filter q).length ≤ (t.filter p).length :=
              length_filter_le_of_imp himp
          _ < (t.filter p).length + 1 := by omega
      · by_cases hq : q a = true
        · simp [List.filter, hq, himp a hq]
          exact ih h
        · simp only [List.filter, hq]
          by_cases hp : p a = true
          · simp only [hp, List.length_cons]
            calc (t.filter q).length < (t.filter p).length := ih h
              _ < (t.filter p).length + 1 := by omega
          · simp only [Bool.not_eq_true] at hq hp
            simp only [hq, hp]
            exact ih h

theorem hist_measure_lt (keys hist : List String) {id : String}
    (hmem : id ∈ keys) (hnotin : id ∉ hist) :
    ((keys.filter (fun x => decide (x ∉ hist ++ [id]))).length) <
      ((keys.filter (fun x => decide (x ∉ hist))).length) := by
  apply length_filter_lt_of_imp (x := id) _ hmem
  · simp [hnotin]
  · simp
  · intro x hx
    simp only [decide_eq_true_eq] at hx ⊢
    intro hmem2
    exact hx (by simp [hmem2])

/-- `Repo._history`: breadth-first enumeration of a commit's ancestry via
a FIFO queue, deduplicating by id, enqueuing the secondary parent before
the primary parent.  A queue entry naming no stored commit would raise
`SystemExit(1)` in `load_commit` (`none` here).  Termination: each queue
step either consumes a visited id (queue shrinks) or visits a new stored
id (the set of stored-but-unvisited ids shrinks). -/
def historyLoop (cs : Assoc Commit) : List String → List String →
    Option (List String)
  | hist, [] => some hist
  | hist, id :: q =>
      if id ∈ hist then historyLoop cs hist q
      else
        match h : dget cs id with
        | none => none
        | some c =>
            historyLoop cs (hist ++ [id])
              (q ++ (if c.parentTwo ≠ "" then [c.parentTwo] else []) ++
                (if c.parentOne ≠ "" then [c.parentOne] else []))
termination_by hist q =>
  (((keysOf cs).filter (fun x => decide (x ∉ hist))).length, q.length)
decreasing_by
  · apply Prod.Lex.right
    simp
  · apply Prod.Lex.left
    exact hist_measure_lt (keysOf cs) hist (dget_some_mem_keys h) (by assumption)

/-- `Repo._history` entry point: the commit history of `headId`. -/
def historyOf (s : RepoState) (headId : String) : Option (List String) :=
  historyLoop s.commits [] [headId]

/-- `Repo._find_split`: scans the target history in enumeration order and
returns the first id also present in the current history; the empty
string signals that no common ancestor exists. -/
def findSplit (cur : List String) : List String → String
  | [] => ""
  | id :: rest => if id ∈ cur then id else findSplit cur rest

/-- `Repo._validate_merge`: unstaged modifications, a dirty index,
self-merge and an unknown branch each cancel the merge (flag `true`),
with the corresponding message. -/
def validateMerge (s : RepoState) (target : String) :
    Except Outcome (Bool × List String) := do
  let mods ← unstagedModifications s
  if mods ≠ [] then
    pure (true,
      ["There is a file with unstaged changes; delete it, or add and commit it first."])
  else if s.index.additions ≠ [] ∨ s.index.removals ≠ [] then
    pure (true, ["You have uncommitted changes."])
  else if target = currentBranch s then
    pure (true, ["Cannot merge a branch with itself."])
  else if target ∉ branchNames s then
    pure (true, ["A branch with that name does not exist."])
  else pure (false, [])

/-- `Repo._merge_head_target`: decision for a file tracked by both head
and target — stage the target's version if only the target modified it
since the split, record a conflict if both modified it differently (or if
it is absent at the split with differing content). -/
def mergeHeadTarget (s : RepoState) (conflicts : List String)
    (filename headBid targetBid : String) (splitBlobs : Assoc String) :
    RepoState × List String :=
  match dget splitBlobs filename with
  | some splitBid =>
      if splitBid ≠ targetBid then
        if headBid = splitBid then
          ({ s with index := s.index.stage filename targetBid }, conflicts)
        else if headBid ≠ targetBid then (s, conflicts ++ [filename])
        else (s, conflicts)
      else (s, conflicts)
  | none =>
      if headBid ≠ targetBid then (s, conflicts ++ [filename])
      else (s, conflicts)

/-- The loop of `Repo._prepare_merge` over the head commit's files,
threading the conflicts list and the shrinking copy of the target's blob
mapping (`target_blobs.pop`); a file removed from the target and
unmodified in head is staged for removal and unlinked (a missing working
file would raise there). -/
def prepLoop (splitBlobs : Assoc String) :
    RepoState → List String → Assoc String → List (String × String) →
      RepoState × List String × Assoc String × Outcome
  | s, conflicts, tgtRem, [] => (s, conflicts, tgtRem, .ok)
  | s, conflicts, tgtRem, (filename, headBid) :: rest =>
      match dget tgtRem filename with
      | some tgtBid =>
          let p := mergeHeadTarget s conflicts filename headBid tgtBid splitBlobs
          prepLoop splitBlobs p.1 p.2 (dpop tgtRem filename) rest
      | none =>
          match dget splitBlobs filename with
          | some splitBid =>
              if headBid = splitBid then
                let s1 := { s with index := s.index.removeEntry filename }
                if (dget s1.workdir filename).isSome then
                  prepLoop splitBlobs
                    { s1 with workdir := dpop s1.workdir filename }
                    conflicts (dpop tgtRem filename) rest
                else (s1, conflicts, tgtRem, .fileError)
              else prepLoop splitBlobs s conflicts (dpop tgtRem filename) rest
          | none => prepLoop splitBlobs s conflicts (dpop tgtRem filename) rest

/-- The loop of `Repo._merge_target_blobs` over the target-only files:
files new since the split are checked out from the target commit and
staged; files modified in the target are staged.  The index is loaded
once and saved after the loop. -/
def mtbLoop (splitBlobs : Assoc String) (tgtCid : String) :
    RepoState → Index → List String → List (String × String) →
      RepoState × Index × List String × Outcome
  | s, idx, outAcc, [] => (s, idx, outAcc, .ok)
  | s, idx, outAcc, (filename, tgtBid) :: rest =>
      match dget splitBlobs filename with
      | none =>
          let r := checkoutFile s filename tgtCid
          match r.oc with
          | .ok =>
              mtbLoop splitBlobs tgtCid r.st (idx.stage filename tgtBid)
                (outAcc ++ r.out) rest
          | _ => (r.st, idx, outAcc ++ r.out, r.oc)
      | some splitBid =>
          if tgtBid ≠ splitBid then
            mtbLoop splitBlobs tgtCid s (idx.stage filename tgtBid) outAcc rest
          else mtbLoop splitBlobs tgtCid s idx outAcc rest

/-- `Repo._merge_target_blobs`: runs the loop and saves the index. -/
def mergeTargetBlobs (s : RepoState) (tgtRem splitBlobs : Assoc String)
    (tgtCid : String) : R :=
  match mtbLoop splitBlobs tgtCid s s.index [] tgtRem with
  | (s1, idx, outs, .ok) => ⟨{ s1 with index := idx }, outs, .ok⟩
  | (s1, _, outs, oc) => ⟨s1, outs, oc⟩

/-- `Repo._prepare_merge`: stages the merge's additions/removals,
checks out target-only files, and returns the conflicted filenames. -/
def prepareMerge (s : RepoState) (targetCommitId splitId : String) :
    RepoState × List String × Outcome × List String :=
  match headCommitId s with
  | none => (s, [], .fileError, [])
  | some hid =>
      match getBlobs s hid, getBlobs s targetCommitId, getBlobs s splitId with
      | .ok headBlobs, .ok targetBlobs, .ok splitBlobs =>
          match prepLoop splitBlobs s [] targetBlobs headBlobs with
          | (s1, conflicts, tgtRem, .ok) =>
              let r := mergeTargetBlobs s1 tgtRem splitBlobs targetCommitId
              (r.st, r.out, r.oc, conflicts)
          | (s1, conflicts, _, oc) => (s1, [], oc, conflicts)
      | .error e, _, _ => (s, [], e, [])
      | _, .error e, _ => (s, [], e, [])
      | _, _, .error e => (s, [], e, [])

/-- The loop of `Repo._merge_conflict` over the conflicted files: each is
rewritten with `_write_conflict` (both files read in text mode) and then
re-staged through `Repo.add`. -/
def conflictLoop (tgtBlobs : Assoc String) (tgtHead : String) :
    RepoState → List String → List String → RepoState × List String × Outcome
  | s, outAcc, [] => (s, outAcc, .ok)
  | s, outAcc, filename :: rest =>
      match dget s.workdir filename, dget tgtBlobs filename with
      | some headContent, some bid =>
          match dget s.blobs bid with
          | none => (s, outAcc, .fileError)
          | some bc =>
              let merged := String.join (writeConflict tgtHead
                (splitLines (univNL headContent)) (splitLines (univNL bc)))
              let s1 := { s with workdir := dinsert s.workdir filename merged }
              let r := add s1 filename
              match r.oc with
              | .ok => conflictLoop tgtBlobs tgtHead r.st (outAcc ++ r.out) rest
              | _ => (r.st, outAcc ++ r.out, r.oc)
      | _, _ => (s, outAcc, .fileError)

/-- `Repo._merge_conflict`: rewrites and stages each conflicted file,
creates the merge commit with message
`"Merged <current> into <target>."`, and prints
`"Encountered a merge conflict."`. -/
def mergeConflict (s : RepoState) (conflicts : List String)
    (targetBranch : String) : R :=
  match getBranchHead s targetBranch with
  | .error e => ⟨s, [], e⟩
  | .ok tgtHead =>
      match getBlobs s tgtHead with
      | .error e => ⟨s, [], e⟩
      | .ok tgtBlobs =>
          match conflictLoop tgtBlobs tgtHead s [] conflicts with
          | (s1, outs, .ok) =>
              let msg :=
                "Merged " ++ currentBranch s1 ++ " into " ++ targetBranch ++ "."
              match headCommitId s1 with
              | none => ⟨s1, outs, .fileError⟩
              | some hid =>
                  match getBranchHead s1 targetBranch with
                  | .error e => ⟨s1, outs, e⟩
                  | .ok tgtHead2 =>
                      let r := newCommit s1 hid msg tgtHead2
                      ⟨r.st,
                        outs ++ r.out ++
                          (if r.oc = .ok then ["Encountered a merge conflict."]
                           else []),
                        r.oc⟩
          | (s1, outs, oc) => ⟨s1, outs, oc⟩

/-- `Repo.merge`: validates, computes both histories, short-circuits on
the ancestor and fast-forward cases, finds the split point, prepares the
staging area, and commits — through `_merge_conflict` if any file
conflicted, else directly with message `"Merged <target> into <current>"`
(printed afterwards). -/
def mergeOp (s : RepoState) (target : String) : R :=
  match validateMerge s target with
  | .error e => ⟨s, [], e⟩
  | .ok (true, msgs) => ⟨s, msgs, .ok⟩
  | .ok (false, _) =>
      match getBranchHead s target with
      | .error e => ⟨s, [], e⟩
      | .ok targetCid =>
          match headCommitId s with
          | none => ⟨s, [], .fileError⟩
          | some headCid =>
              match historyOf s headCid with
              | none => ⟨s, [], .exit1⟩
              | some curHist =>
                  match historyOf s targetCid with
                  | none => ⟨s, [], .exit1⟩
                  | some tgtHist =>
                      if targetCid ∈ curHist then
                        ⟨s, ["Target branch is an ancestor of the current branch."],
                          .ok⟩
                      else if headCid ∈ tgtHist then
                        let r := checkoutCommit s headCid targetCid
                        ⟨r.st, "Current branch is fast-forwarded." :: r.out, r.oc⟩
                      else
                        let split := findSplit curHist tgtHist
                        if split = "" then
                          ⟨s, ["No common ancestor found."], .ok⟩
                        else
                          match prepareMerge s targetCid split with
                          | (s1, out1, .ok, conflicts) =>
                              if conflicts ≠ [] then
                                let r := mergeConflict s1 conflicts target
                                ⟨r.st, out1 ++ r.out, r.oc⟩
                              else
                                let msg := "Merged " ++ target ++ " into " ++
                                  currentBranch s1
                                match headCommitId s1 with
                                | none => ⟨s1, out1, .fileError⟩
                                | some hid2 =>
                                    let r := newCommit s1 hid2 msg targetCid
                                    ⟨r.st,
                                      out1 ++ r.out ++
                                        (if r.oc = .ok then [msg] else []),
                                      r.oc⟩
                          | (s1, out1, oc, _) => ⟨s1, out1, oc⟩

/-- The root commit created by `init` (message per `tests/test_init.py`). -/
def rootCommitV : Commit := ⟨"", "", "Initial commit.", []⟩

/-- Id of the root commit. -/
def rootCid : String := mkCommitId "" "Initial commit." ""

/-- A freshly initialized repository: one root commit, branch `main`
pointing at it, HEAD at `main`, empty index, empty working directory. -/
def stFresh : RepoState :=
  ⟨[], [(rootCid, rootCommitV)], [("main", rootCid)], "main", ⟨[], []⟩, []⟩

/-- A fresh repository whose index has `a.txt` staged for removal (the
state after `remove` of a tracked file). -/
def stRem : RepoState :=
  ⟨[("old", "old")],
   [(rootCid, { rootCommitV with blobs := [("a.txt", "old")] })],
   [("main", rootCid)], "main", ⟨[], ["a.txt"]⟩, []⟩

/-- Modelled from the spec: the `commit <message>` CLI operation
(`main.py` is not among the sources) invokes `new_commit` with the
current head commit as parent (§4.6). -/
def commitOp (s : RepoState) (m : String) : R :=
  match headCommitId s with
  | none => ⟨s, [], .fileError⟩
  | some hid => newCommit s hid m ""

/-- A fresh repository whose working directory holds one file `f` with
content `c`. -/
def freshRepoWith (f c : String) : RepoState :=
  ⟨[], [(rootCid, rootCommitV)], [("main", rootCid)], "main", ⟨[], []⟩,
    [(f, c)]⟩

/-- `add(f)`, then `commit(m)`, then `checkout_file(f)` from the
resulting commit (HEAD), starting from a fresh repository holding `f`. -/
def roundTrip (f c m : String) : R :=
  andThen (add (freshRepoWith f c) f) (fun s1 =>
    andThen (commitOp s1 m) (fun s2 => checkoutFile s2 f ""))

/-- A commit store is closed when every nonempty parent reference of a
stored commit is itself stored (the commit graph is well-formed). -/
def ClosedGraph (cs : Assoc Commit) : Prop :=
  ∀ id c, dget cs id = some c →
    (c.parentTwo ≠ "" → (dget cs c.parentTwo).isSome) ∧
    (c.parentOne ≠ "" → (dget cs c.parentOne).isSome)

/-- A repository with two disconnected root commits (`main` on one,
`fake` — the checked-out branch — on the other), as in the repository's
`test_merge_no_split` scenario. -/
def stNoSplit : RepoState :=
  ⟨[], [("rA", ⟨"", "", "mA", []⟩), ("rB", ⟨"", "", "mB", []⟩)],
   [("main", "rA"), ("fake", "rB")], "fake", ⟨[], []⟩, []⟩

/-- A repository whose history contains a two-parent merge commit `m`
(parents `a` and `b`, which share the root `r`). -/
def stMergeHist : RepoState :=
  ⟨[], [("m", ⟨"a", "b", "merge", []⟩), ("a", ⟨"r", "", "ca", []⟩),
        ("b", ⟨"r", "", "cb", []⟩), ("r", ⟨"", "", "root", []⟩)],
   [("x", "m")], "x", ⟨[], []⟩, []⟩

/-- A conflicted-merge scenario: both `main` (checked out, at `c1`) and
`dev` (at `c2`) changed `a.txt` differently since their common ancestor
`r`; index and working directory clean. -/
def stConf : RepoState :=
  ⟨[("x\n", "x\n"), ("y\n", "y\n"), ("z\n", "z\n")],
   [("r", ⟨"", "", "c0", [("a.txt", "x\n")]⟩),
    ("c1", ⟨"r", "", "c1m", [("a.txt", "y\n")]⟩),
    ("c2", ⟨"r", "", "c2m", [("a.txt", "z\n")]⟩)],
   [("main", "c1"), ("dev", "c2")], "main", ⟨[], []⟩, [("a.txt", "y\n")]⟩

/-- The conflict-marked content the merge of `stConf` writes to `a.txt`. -/
def ctText : String := "<<<<<<< HEAD\ny\n=======\nz\n>>>>>>> c2\n"

/-- The repository state after `merge("dev")` on `stConf`: the conflicted
file carries the markers, its blob is stored, and the merge commit — with
message `"Merged main into dev."` — is stored and pointed to by `main`. -/
def stConfFinal : RepoState :=
  ⟨[("x\n", "x\n"), ("y\n", "y\n"), ("z\n", "z\n"), (ctText, ctText)],
   [("r", ⟨"", "", "c0", [("a.txt", "x\n")]⟩),
    ("c1", ⟨"r", "", "c1m", [("a.txt", "y\n")]⟩),
    ("c2", ⟨"r", "", "c2m", [("a.txt", "z\n")]⟩),
    ("#c1|Merged main into dev.|c2",
      ⟨"c1", "c2", "Merged main into dev.", [("a.txt", ctText)]⟩)],
   [("main", "#c1|Merged main into dev.|c2"), ("dev", "c2")], "main",
   ⟨[], []⟩, [("a.txt", ctText)]⟩

/-- The fast-forward scenario of the repository's tests: `main` (checked
out) at the root commit, `dev` one commit ahead with a changed `a.txt`,
clean index and working directory. -/
def stFF : RepoState :=
  ⟨[("Hello", "Hello"), ("Hello, gitlepy.\n", "Hello, gitlepy.\n")],
   [("r", ⟨"", "", "c0", [("a.txt", "Hello")]⟩),
    ("d", ⟨"r", "", "c1", [("a.txt", "Hello, gitlepy.\n")]⟩)],
   [("main", "r"), ("dev", "d")], "main", ⟨[], []⟩, [("a.txt", "Hello")]⟩

end Gitlepy

namespace Gitlepy

/-- C1: the claim says every user-facing validation failure aborts before
any mutation, and in particular `checkout_branch` with a nonexistent
branch leaves HEAD (and all other state) unchanged.  The code prints the
invalid-branch message but lacks a `return` there: on a clean fresh
repository it then overwrites the HEAD file with the nonexistent branch
name and crashes with `AssertionError` in `get_branch_head` — HEAD is
mutated by a validation failure. -/
theorem checkout_branch_invalid_branch_mutates_head :
    checkoutBranch stFresh "nope" =
      ⟨{ stFresh with headBranch := "nope" },
        ["nope is not a valid branch name."], .assertError⟩ ∧
    stFresh.headBranch = "main" := by
  constructor
  · decide
  · rfl

/-- C2: after the lockstep pass, leftover head lines are appended
verbatim (first conjunct, for the one-leftover-side shape `["a\n"]` vs
`["a\n","x\n","y\n"]` the head side is exhausted), but the claimed
"conflict block whose target side contains every remaining target line"
fails: the trailing loop reads from the exhausted head file (`f1`) instead
of the target file, so only the first leftover target line (`"x\n"`) is
emitted and `"y\n"` is lost. -/
theorem write_conflict_trailing_target_drops_lines :
    writeConflict "c2" ["a\n"] ["a\n", "x\n", "y\n"] =
      ["a\n", startDiff, midDiff, "x\n", endDiff "c2"] ∧
    "y\n" ∉ writeConflict "c2" ["a\n"] ["a\n", "x\n", "y\n"] := by
  have h : writeConflict "c2" ["a\n"] ["a\n", "x\n", "y\n"] =
      ["a\n", startDiff, midDiff, "x\n", endDiff "c2"] := by
    simp [writeConflict]
  refine ⟨h, ?_⟩
  rw [h]
  decide

/-- C4: `checkout_file` with a target string resolving to no commit
prints the invalid-commit message but then falls through to
`commit.blobs` with the local variable `commit` unbound, raising
`UnboundLocalError` — not a clean stop.  (The repository state itself is
left unchanged.) -/
theorem checkout_file_invalid_commit_crashes :
    checkoutFile stFresh "a.txt" "zzz" =
      ⟨stFresh, ["zzz is not a valid commit."], .nameError⟩ := by
  decide

/-- C9: on head content `"Hi\n"` and target content `"Hello, gitlepy.\n"`
(no shared lines), the conflict writer produces exactly one conflict
block naming the target commit id. -/
theorem conflict_format_hi_hello (cid : String) :
    String.join (writeConflict cid (splitLines (univNL "Hi\n"))
        (splitLines (univNL "Hello, gitlepy.\n"))) =
      "<<<<<<< HEAD\nHi\n=======\nHello, gitlepy.\n>>>>>>> " ++ cid ++ "\n" := by
  have h1 : splitLines (univNL "Hi\n") = ["Hi\n"] := by decide
  have h2 : splitLines (univNL "Hello, gitlepy.\n") = ["Hello, gitlepy.\n"] := by
    decide
  rw [h1, h2]
  have h3 : writeConflict cid ["Hi\n"] ["Hello, gitlepy.\n"] =
      [startDiff, "Hi\n", midDiff, "Hello, gitlepy.\n", endDiff cid] := by
    simp [writeConflict]
  rw [h3]
  apply String.ext
  simp [String.join, startDiff, midDiff, endDiff, String.data_append]

/-- C10: `remove` of a file already staged for removal reports it and
returns with the whole repository state (index and working directory
included) unchanged. -/
theorem remove_already_staged_idempotent (s : RepoState) (filename : String)
    (h : filename ∈ s.index.removals) :
    removeOp s filename =
      ⟨s, ["That file is already staged for removal."], .ok⟩ := by
  simp [removeOp, h]

theorem remove_already_staged_idempotent_witness :
    removeOp stRem "a.txt" =
      ⟨stRem, ["That file is already staged for removal."], .ok⟩ :=
  remove_already_staged_idempotent stRem "a.txt" (by decide)

/-- C5 counterexample: for the byte content `"a\r\nb"`, the round trip
`add; commit; checkout_file` ends with `"a\nb"` in the working directory
— not the original content — because `checkout_file` copies the blob via
a text-mode read (`blob.read_text()`), which performs universal-newline
translation. -/
theorem roundtrip_crlf_counterexample :
    (roundTrip "a.txt" "a\r\nb" "msg").oc = .ok ∧
    dget (roundTrip "a.txt" "a\r\nb" "msg").st.workdir "a.txt" =
      some "a\nb" ∧
    ("a\nb" : String) ≠ "a\r\nb" := by
  decide

/-- C5 amended: for every filename, message, and content containing no
carriage-return character, `add(f)` then `commit(m)` then
`checkout_file(f)` from the resulting commit restores `f`'s exact
original content in the working directory. -/
theorem roundtrip_no_cr_restores (f c m : String)
    (h : ∀ ch ∈ c.data, ch ≠ '\r') :
    (roundTrip f c m).oc = .ok ∧
    dget (roundTrip f c m).st.workdir f = some c := by
  have huniv := univNL_of_no_cr c h
  simp [roundTrip, andThen, add, commitOp, newCommit, checkoutFile,
    checkoutFileWrite, freshRepoWith, headCommitId, loadCommit, getBlobs,
    currentBranch, updateBranchHead, Index.stage, Index.isStaged,
    mkCommitId, rootCid, rootCommitV, huniv, Except.map,
    dget_nil, dget_cons_self, dinsert_nil, dinsert_cons_same, dget_dinsert]

theorem roundtrip_no_cr_restores_witness :
    (roundTrip "b.txt" "Hello, gitlepy.\n" "msg2").oc = .ok ∧
    dget (roundTrip "b.txt" "Hello, gitlepy.\n" "msg2").st.workdir "b.txt" =
      some "Hello, gitlepy.\n" :=
  roundtrip_no_cr_restores "b.txt" "Hello, gitlepy.\n" "msg2" (by decide)

theorem findSplit_eq_findQ (cur tgt : List String) :
    findSplit cur tgt = ((tgt.find? fun id => decide (id ∈ cur)).getD "") := by
  induction tgt with
  | nil => rfl
  | cons id rest ih =>
      by_cases hm : id ∈ cur
      · simp [findSplit, hm, List.find?_cons_of_pos]
      · rw [findSplit, if_neg hm, List.find?_cons_of_neg _ (by simp [hm]), ih]

theorem findSplit_empty_of_disjoint (cur : List String) :
    ∀ tgt : List String, (∀ id ∈ tgt, id ∉ cur) → findSplit cur tgt = "" := by
  intro tgt
  induction tgt with
  | nil => intro _; rfl
  | cons id rest ih =>
      intro h
      rw [findSplit, if_neg (h id (List.mem_cons_self _ _))]
      exact ih fun x hx => h x (List.mem_cons_of_mem _ hx)

theorem disjoint_of_findSplit_empty (cur : List String) :
    ∀ tgt : List String, "" ∉ tgt → findSplit cur tgt = "" →
      ∀ id ∈ tgt, id ∉ cur := by
  intro tgt
  induction tgt with
  | nil => intro _ _ id hid; simp at hid
  | cons x rest ih =>
      intro hne h id hid
      by_cases hm : x ∈ cur
      · rw [findSplit, if_pos hm] at h
        subst h
        exact absurd (List.mem_cons_self _ _) hne
      · rw [findSplit, if_neg hm] at h
        rcases List.mem_cons.mp hid with rfl | hid2
        · exact hm
        · exact ih (fun hc => hne (List.mem_cons_of_mem _ hc)) h id hid2

/-- C6: `_find_split` returns the first id of the target history, in its
enumeration order, that also appears in the current history (first
conjunct, phrased with `List.find?`), and returns the empty marker
exactly when the two histories are disjoint (second conjunct; commit ids
are nonempty).  In that case `merge` prints `"No common ancestor found."`
and leaves the repository state unchanged (third conjunct). -/
theorem find_merge_base_spec :
    (∀ cur tgt : List String,
        findSplit cur tgt = ((tgt.find? fun id => decide (id ∈ cur)).getD "")) ∧
    (∀ cur tgt : List String, "" ∉ tgt →
        (findSplit cur tgt = "" ↔ ∀ id ∈ tgt, id ∉ cur)) ∧
    (∀ (s : RepoState) (target tCid hCid : String) (curH tgtH : List String),
        validateMerge s target = .ok (false, []) →
        getBranchHead s target = .ok tCid →
        headCommitId s = some hCid →
        historyOf s hCid = some curH →
        historyOf s tCid = some tgtH →
        hCid ∈ curH → tCid ∈ tgtH →
        (∀ id ∈ tgtH, id ∉ curH) →
        mergeOp s target = ⟨s, ["No common ancestor found."], .ok⟩) := by
  refine ⟨findSplit_eq_findQ, ?_, ?_⟩
  · intro cur tgt hne
    exact ⟨disjoint_of_findSplit_empty cur tgt hne,
      findSplit_empty_of_disjoint cur tgt⟩
  · intro s target tCid hCid curH tgtH hv hgb hh h1 h2 hc ht hd
    have hanc : tCid ∉ curH := hd tCid ht
    have hff : hCid ∉ tgtH := fun hm => hd hCid hm hc
    have hsp : findSplit curH tgtH = "" := findSplit_empty_of_disjoint _ _ hd
    simp [mergeOp, hv, hgb, hh, h1, h2, hanc, hff, hsp]

theorem find_merge_base_spec_witness :
    mergeOp stNoSplit "main" = ⟨stNoSplit, ["No common ancestor found."], .ok⟩ :=
  find_merge_base_spec.2.2 stNoSplit "main" "rA" "rB" ["rB"] ["rA"]
    (by rfl) (by rfl) (by rfl)
    (by simp [historyOf, historyLoop, stNoSplit, dget])
    (by simp [historyOf, historyLoop, stNoSplit, dget])
    (by decide) (by decide) (by decide)

theorem historyLoop_nil (cs : Assoc Commit) (hist : List String) :
    historyLoop cs hist [] = some hist := by
  rw [historyLoop]

theorem historyLoop_cons_mem (cs : Assoc Commit) (hist : List String)
    (id : String) (q : List String) (h : id ∈ hist) :
    historyLoop cs hist (id :: q) = historyLoop cs hist q := by
  rw [historyLoop.eq_def]
  simp [h]

theorem historyLoop_cons_none (cs : Assoc Commit) (hist : List String)
    (id : String) (q : List String) (hnm : id ∉ hist)
    (hn : dget cs id = none) :
    historyLoop cs hist (id :: q) = none := by
  rw [historyLoop.eq_def]
  simp only [if_neg hnm]
  split <;> simp_all

theorem historyLoop_cons_some (cs : Assoc Commit) (hist : List String)
    (id : String) (q : List String) (c : Commit) (hnm : id ∉ hist)
    (hs : dget cs id = some c) :
    historyLoop cs hist (id :: q) =
      historyLoop cs (hist ++ [id])
        (q ++ (if c.parentTwo ≠ "" then [c.parentTwo] else []) ++
          (if c.parentOne ≠ "" then [c.parentOne] else [])) := by
  rw [historyLoop.eq_def]
  simp only [if_neg hnm]
  split
  · simp_all
  · next c' heq =>
      rw [hs] at heq
      cases heq
      rfl

theorem historyLoop_nodup_aux (cs : Assoc Commit) : ∀ hist q, hist.Nodup →
    ∀ l, historyLoop cs hist q = some l → l.Nodup := by
  intro hist q
  induction hist, q using historyLoop.induct cs with
  | case1 hist =>
      intro hn l h
      rw [historyLoop_nil] at h
      cases h
      exact hn
  | case2 hist id q hmem ih =>
      intro hn l h
      rw [historyLoop_cons_mem cs hist id q hmem] at h
      exact ih hn l h
  | case3 hist id q hnm hnone =>
      intro hn l h
      rw [historyLoop_cons_none cs hist id q hnm hnone] at h
      cases h
  | case4 hist id q hnm c hsome ih =>
      intro hn l h
      rw [historyLoop_cons_some cs hist id q c hnm hsome] at h
      simp only [dite_eq_ite] at ih
      refine ih ?_ l h
      exact List.Nodup.append hn (List.nodup_singleton id)
        (List.disjoint_singleton.mpr hnm)

theorem historyLoop_total_aux (cs : Assoc Commit) (hcl : ClosedGraph cs) :
    ∀ hist q, (∀ x ∈ q, (dget cs x).isSome) →
      (historyLoop cs hist q).isSome := by
  intro hist q
  induction hist, q using historyLoop.induct cs with
  | case1 hist => intro _; simp [historyLoop_nil]
  | case2 hist id q hmem ih =>
      intro hq
      rw [historyLoop_cons_mem cs hist id q hmem]
      exact ih fun x hx => hq x (List.mem_cons_of_mem _ hx)
  | case3 hist id q hnm hnone =>
      intro hq
      have h := hq id (List.mem_cons_self _ _)
      simp [hnone] at h
  | case4 hist id q hnm c hsome ih =>
      intro hq
      rw [historyLoop_cons_some cs hist id q c hnm hsome]
      simp only [dite_eq_ite] at ih
      apply ih
      intro x hx
      rcases List.mem_append.mp hx with hx1 | hx1
      · rcases List.mem_append.mp hx1 with hx2 | hx2
        · exact hq x (List.mem_cons_of_mem _ hx2)
        · by_cases h2 : c.parentTwo ≠ ""
          · simp only [if_pos h2, List.mem_singleton] at hx2
            subst hx2
            exact (hcl id c hsome).1 h2
          · simp [h2] at hx2
      · by_cases h1 : c.parentOne ≠ ""
        · simp only [if_pos h1, List.mem_singleton] at hx1
          subst hx1
          exact (hcl id c hsome).2 h1
        · simp [h1] at hx1

/-- C7: the history enumeration is a total function of the state (it is
defined by well-founded recursion on the measure that the source's queue
loop decreases), its output never contains a duplicate commit id, and on
a well-formed (closed) finite commit graph — merge commits with two
parents included — it terminates successfully with an enumeration. -/
theorem history_terminates_nodup :
    (∀ (s : RepoState) (start : String) (l : List String),
        historyOf s start = some l → l.Nodup) ∧
    (∀ (s : RepoState) (start : String), ClosedGraph s.commits →
        (dget s.commits start).isSome → (historyOf s start).isSome) := by
  constructor
  · intro s start l h
    exact historyLoop_nodup_aux s.commits [] [start] (by simp) l h
  · intro s start hcl hst
    refine historyLoop_total_aux s.commits hcl [] [start] ?_
    intro x hx
    rcases List.mem_singleton.mp hx with rfl
    exact hst

theorem dget_some_mem {β : Type} {m : Assoc β} {k : String} {v : β}
    (h : dget m k = some v) : (k, v) ∈ m := by
  induction m with
  | nil => simp [dget] at h
  | cons hd tl ih =>
      obtain ⟨a, b⟩ := hd
      by_cases ha : a = k
      · subst ha
        rw [dget_cons_self] at h
        cases h
        simp
      · simp only [dget, if_neg ha] at h
        exact List.mem_cons_of_mem _ (ih h)

theorem getBlobs_error {s : RepoState} {cid : String} {e : Outcome}
    (h : getBlobs s cid = .error e) : e = .exit1 := by
  unfold getBlobs loadCommit at h
  cases hd : dget s.commits cid <;> rw [hd] at h <;> simp [Except.map] at h
  exact h.symm

theorem writeAllB_pres (bs : Assoc String) : ∀ (entries : List (String × String))
    (wd wd' : Assoc String), writeAllB bs wd entries = (wd', true) →
    ∀ k, k ∉ entries.map Prod.fst → dget wd' k = dget wd k := by
  intro entries
  induction entries with
  | nil =>
      intro wd wd' h k _
      cases h
      rfl
  | cons e rest ih =>
      intro wd wd' h k hk
      obtain ⟨f, bid⟩ := e
      simp only [writeAllB] at h
      cases hbc : dget bs bid with
      | none =>
          rw [hbc] at h
          exact absurd (congrArg Prod.snd h) (by simp)
      | some bc =>
          rw [hbc] at h
          have hkr : k ∉ rest.map Prod.fst := fun hm => hk (by simp [hm])
          have hkf : f ≠ k := fun e => hk (by simp [e])
          rw [ih _ _ h k hkr]
          exact dget_dinsert_ne _ _ hkf

theorem writeAllB_lookup (bs : Assoc String) : ∀ (entries : List (String × String))
    (wd wd' : Assoc String), writeAllB bs wd entries = (wd', true) →
    (entries.map Prod.fst).Nodup →
    ∀ f bid, (f, bid) ∈ entries →
      ∃ bc, dget bs bid = some bc ∧ dget wd' f = some (univNL bc) := by
  intro entries
  induction entries with
  | nil =>
      intro wd wd' _ _ f bid hmem
      simp at hmem
  | cons e rest ih =>
      intro wd wd' h hnd f bid hmem
      obtain ⟨f0, b0⟩ := e
      simp only [writeAllB] at h
      cases hbc : dget bs b0 with
      | none =>
          rw [hbc] at h
          exact absurd (congrArg Prod.snd h) (by simp)
      | some bc0 =>
          rw [hbc] at h
          simp only [List.map_cons, List.nodup_cons] at hnd
          rcases List.mem_cons.mp hmem with heq | hmem2
          · injection heq with hf1 hb1
            subst hf1
            subst hb1
            refine ⟨bc0, hbc, ?_⟩
            rw [writeAllB_pres bs rest _ _ h _ hnd.1]
            exact dget_dinsert _ _ _
          · exact ih _ _ h hnd.2 f bid hmem2

theorem checkoutCommit_ok {s : RepoState} {oldId tgtId : String}
    (hok : (checkoutCommit s oldId tgtId).oc = .ok) :
    ∃ tb wd1 wd2, getBlobs s tgtId = .ok tb ∧
      writeAllB s.blobs wd1 tb = (wd2, true) ∧
      (checkoutCommit s oldId tgtId).st =
        updateBranchHead { s with workdir := wd2, index := Index.clearAll }
          (currentBranch s) tgtId ∧
      (checkoutCommit s oldId tgtId).out = [] := by
  unfold checkoutCommit at hok ⊢
  split at hok
  · next e heq =>
      have := getBlobs_error heq
      subst this
      simp at hok
  · next tb heq =>
      split at hok
      · next e heq2 =>
          have := getBlobs_error heq2
          subst this
          simp at hok
      · next cb heq2 =>
          dsimp only at hok ⊢
          split at hok
          · next wd1 heq3 =>
              simp at hok
          · next wd1 heq3 =>
              split at hok
              · next wd2 heq4 =>
                  simp at hok
              · next wd2 heq4 =>
                  exact ⟨tb, wd1, wd2, heq, heq4, rfl, rfl⟩

/-- C8: when the merge validations pass and the target's history contains
the current HEAD commit (while the target head is not already an ancestor
of the current branch), `merge` fast-forwards: it prints the fast-forward
message and runs `_checkout_commit`, which — when it completes — creates
no new commit object, moves the current branch's ref to the target's head
commit, clears the index, keeps HEAD on the same branch, and rewrites the
working directory with the target commit's (text-mode) blob contents. -/
theorem merge_fast_forward (s : RepoState) (target tCid hCid : String)
    (curH tgtH : List String) (tb : Assoc String)
    (hv : validateMerge s target = .ok (false, []))
    (hgb : getBranchHead s target = .ok tCid)
    (hh : headCommitId s = some hCid)
    (h1 : historyOf s hCid = some curH)
    (h2 : historyOf s tCid = some tgtH)
    (hanc : tCid ∉ curH)
    (hff : hCid ∈ tgtH)
    (htb : getBlobs s tCid = .ok tb)
    (hnd : (keysOf tb).Nodup) :
    mergeOp s target =
      ⟨(checkoutCommit s hCid tCid).st,
        "Current branch is fast-forwarded." :: (checkoutCommit s hCid tCid).out,
        (checkoutCommit s hCid tCid).oc⟩ ∧
    ((checkoutCommit s hCid tCid).oc = .ok →
      (checkoutCommit s hCid tCid).st.commits = s.commits ∧
      dget (checkoutCommit s hCid tCid).st.branches (currentBranch s) =
        some tCid ∧
      (checkoutCommit s hCid tCid).st.index = Index.clearAll ∧
      (checkoutCommit s hCid tCid).st.headBranch = s.headBranch ∧
      (∀ f bid, dget tb f = some bid →
        ∃ bc, dget s.blobs bid = some bc ∧
          dget (checkoutCommit s hCid tCid).st.workdir f = some (univNL bc))) := by
  constructor
  · simp [mergeOp, hv, hgb, hh, h1, h2, hanc, hff]
  · intro hok
    obtain ⟨tb2, wd1, wd2, htb2, hw, hst, hout⟩ := checkoutCommit_ok hok
    rw [htb] at htb2
    injection htb2 with htb3
    subst htb3
    refine ⟨?_, ?_, ?_, ?_, ?_⟩
    · rw [hst]
      simp [updateBranchHead]
    · rw [hst]
      simp [updateBranchHead, currentBranch, dget_dinsert]
    · rw [hst]
      simp [updateBranchHead]
    · rw [hst]
      simp [updateBranchHead, currentBranch]
    · intro f bid hf
      obtain ⟨bc, hbc, hwd⟩ :=
        writeAllB_lookup s.blobs tb wd1 wd2 hw
          (by simpa [keysOf] using hnd) f bid (dget_some_mem hf)
      refine ⟨bc, hbc, ?_⟩
      rw [hst]
      simpa [updateBranchHead] using hwd

theorem merge_fast_forward_witness :
    mergeOp stFF "dev" =
      ⟨(checkoutCommit stFF "r" "d").st,
        "Current branch is fast-forwarded." :: (checkoutCommit stFF "r" "d").out,
        (checkoutCommit stFF "r" "d").oc⟩ ∧
    ((checkoutCommit stFF "r" "d").oc = .ok →
      (checkoutCommit stFF "r" "d").st.commits = stFF.commits ∧
      dget (checkoutCommit stFF "r" "d").st.branches (currentBranch stFF) =
        some "d" ∧
      (checkoutCommit stFF "r" "d").st.index = Index.clearAll ∧
      (checkoutCommit stFF "r" "d").st.headBranch = stFF.headBranch ∧
      (∀ f bid, dget [("a.txt", "Hello, gitlepy.\n")] f = some bid →
        ∃ bc, dget stFF.blobs bid = some bc ∧
          dget (checkoutCommit stFF "r" "d").st.workdir f =
            some (univNL bc))) :=
  merge_fast_forward stFF "dev" "d" "r" ["r"] ["d", "r"]
    [("a.txt", "Hello, gitlepy.\n")]
    (by rfl) (by rfl) (by rfl)
    (by simp [historyOf, historyLoop, stFF, dget])
    (by simp [historyOf, historyLoop, stFF, dget])
    (by decide) (by decide) (by rfl) (by decide)

/-- The branch refs and the HEAD file are untouched by an operation. -/
def PresRefs (s s' : RepoState) : Prop :=
  s'.branches = s.branches ∧ s'.headBranch = s.headBranch ∧
  s'.commits = s.commits

theorem presRefs_refl (s : RepoState) : PresRefs s s := ⟨rfl, rfl, rfl⟩

theorem presRefs_trans {s t u : RepoState} (h1 : PresRefs s t)
    (h2 : PresRefs t u) : PresRefs s u :=
  ⟨h2.1.trans h1.1, h2.2.1.trans h1.2.1, h2.2.2.trans h1.2.2⟩

theorem getBranchHead_congr {s s' : RepoState} (h : s'.branches = s.branches)
    (b : String) : getBranchHead s' b = getBranchHead s b := by
  unfold getBranchHead
  rw [h]

theorem headCommitId_congr {s s' : RepoState} (hb : s'.branches = s.branches)
    (hh : s'.headBranch = s.headBranch) : headCommitId s' = headCommitId s := by
  unfold headCommitId
  rw [hb, hh]

theorem pres_workdir (s : RepoState) (wd : Assoc String) :
    PresRefs s { s with workdir := wd } := ⟨rfl, rfl, rfl⟩

theorem add_pres (s : RepoState) (f : String) : PresRefs s (add s f).st := by
  unfold add
  dsimp only
  repeat' split
  all_goals exact ⟨rfl, rfl, rfl⟩

theorem checkoutFileWrite_pres (s : RepoState) (c : Commit) (f : String) :
    PresRefs s (checkoutFileWrite s c f).st := by
  unfold checkoutFileWrite
  repeat' split
  all_goals exact ⟨rfl, rfl, rfl⟩

theorem checkoutFile_pres (s : RepoState) (f t : String) :
    PresRefs s (checkoutFile s f t).st := by
  unfold checkoutFile
  repeat' split
  all_goals first
    | exact ⟨rfl, rfl, rfl⟩
    | apply checkoutFileWrite_pres

theorem conflictLoop_pres (tb : Assoc String) (th : String) :
    ∀ (conflicts : List String) (s : RepoState) (acc : List String),
      PresRefs s (conflictLoop tb th s acc conflicts).1 := by
  intro conflicts
  induction conflicts with
  | nil => intro s acc; exact presRefs_refl s
  | cons f rest ih =>
      intro s acc
      unfold conflictLoop
      dsimp only
      repeat' split
      all_goals first
        | exact presRefs_refl s
        | exact presRefs_trans
            (presRefs_trans (pres_workdir s _) (add_pres _ f)) (ih _ _)
        | exact presRefs_trans (pres_workdir s _) (add_pres _ f)

theorem mergeHeadTarget_pres (s : RepoState) (conflicts : List String)
    (filename headBid targetBid : String) (sb : Assoc String) :
    PresRefs s (mergeHeadTarget s conflicts filename headBid targetBid sb).1 := by
  unfold mergeHeadTarget
  repeat' split
  all_goals exact ⟨rfl, rfl, rfl⟩

theorem prepLoop_pres (sb : Assoc String) :
    ∀ (entries : List (String × String)) (s : RepoState)
      (conflicts : List String) (tgtRem : Assoc String),
      PresRefs s (prepLoop sb s conflicts tgtRem entries).1 := by
  intro entries
  induction entries with
  | nil => intro s conflicts tgtRem; exact presRefs_refl s
  | cons e rest ih =>
      intro s conflicts tgtRem
      obtain ⟨filename, headBid⟩ := e
      unfold prepLoop
      dsimp only
      repeat' split
      all_goals first
        | exact ⟨rfl, rfl, rfl⟩
        | exact presRefs_trans (mergeHeadTarget_pres s conflicts filename _ _ sb)
            (ih _ _ _)
        | exact ih _ _ _

theorem mtbLoop_pres (sb : Assoc String) (tc : String) :
    ∀ (entries : List (String × String)) (s : RepoState) (idx : Index)
      (acc : List String),
      PresRefs s (mtbLoop sb tc s idx acc entries).1 := by
  intro entries
  induction entries with
  | nil => intro s idx acc; exact presRefs_refl s
  | cons e rest ih =>
      intro s idx acc
      obtain ⟨filename, tgtBid⟩ := e
      unfold mtbLoop
      dsimp only
      repeat' split
      all_goals first
        | exact presRefs_trans (checkoutFile_pres s filename tc) (ih _ _ _)
        | exact presRefs_trans (checkoutFile_pres s filename tc) (presRefs_refl _)
        | exact ih _ _ _
        | exact presRefs_refl s

theorem mergeTargetBlobs_pres (s : RepoState) (tgtRem sb : Assoc String)
    (tc : String) : PresRefs s (mergeTargetBlobs s tgtRem sb tc).st := by
  unfold mergeTargetBlobs
  have h := mtbLoop_pres sb tc tgtRem s s.index []
  repeat' split
  all_goals
    first
    | (next heq => rw [heq] at h; exact ⟨h.1, h.2.1, h.2.2⟩)
    | (next a b heq => rw [heq] at h; exact h)

theorem prepareMerge_pres (s : RepoState) (tc sp : String) :
    PresRefs s (prepareMerge s tc sp).1 := by
  unfold prepareMerge
  split
  · exact presRefs_refl s
  · split
    · next hb tb sb hhb htb hsb =>
        split
        · next s1 conflicts tgtRem heq =>
            have h := prepLoop_pres sb hb s [] tb
            rw [heq] at h
            exact presRefs_trans h (mergeTargetBlobs_pres s1 tgtRem sb tc)
        · next s1 conflicts x oc heq =>
            have h := prepLoop_pres sb hb s [] tb
            rw [heq] at h
            exact h
    · exact presRefs_refl s
    · exact presRefs_refl s
    · exact presRefs_refl s

theorem newCommit_stores (s : RepoState) (p msg mp : String)
    (hok : (newCommit s p msg mp).oc = .ok) :
    ∃ bl, dget (newCommit s p msg mp).st.commits (mkCommitId p msg mp) =
        some ⟨p, mp, msg, bl⟩ ∧
      dget (newCommit s p msg mp).st.branches (currentBranch s) =
        some (mkCommitId p msg mp) ∧
      (newCommit s p msg mp).out = [] := by
  unfold newCommit updateBranchHead at hok ⊢
  dsimp only at hok ⊢
  by_cases hp : p = ""
  · simp only [if_pos hp] at hok ⊢
    exact ⟨[], dget_dinsert _ _ _, dget_dinsert _ _ _, by trivial⟩
  · simp only [if_neg hp] at hok ⊢
    by_cases hi : s.index.additions = [] ∧ s.index.removals = []
    · rw [if_pos hi] at hok
      simp at hok
    · simp only [if_neg hi] at hok ⊢
      cases heq : getBlobs s p with
      | error e =>
          rw [heq] at hok
          have := getBlobs_error heq
          subst this
          simp at hok
      | ok pb =>
          simp only [heq] at hok ⊢
          exact ⟨_, dget_dinsert _ _ _, dget_dinsert _ _ _, by trivial⟩

theorem getLast_append_singleton (l : List String) (a : String) :
    (l ++ [a]).getLast? = some a := by
  induction l with
  | nil => rfl
  | cons x rest ih =>
      cases rest with
      | nil => rfl
      | cons y t =>
          rw [List.cons_append, List.cons_append, List.getLast?_cons_cons,
            ← List.cons_append]
          exact ih

/-- C3 amended: a merge that takes the clean path records and prints the
message `"Merged <target> into <current>"`; a merge that takes the
conflicted path records the commit message
`"Merged <current> into <target>."` (branch names swapped and with a
trailing period) and prints `"Encountered a merge conflict."` as its last
line instead. -/
theorem merge_commit_message
    (s : RepoState) (target tCid hCid : String) (curH tgtH : List String)
    (s1 : RepoState) (out1 conflicts : List String)
    (hv : validateMerge s target = .ok (false, []))
    (hgb : getBranchHead s target = .ok tCid)
    (hh : headCommitId s = some hCid)
    (h1 : historyOf s hCid = some curH)
    (h2 : historyOf s tCid = some tgtH)
    (hanc : tCid ∉ curH) (hff : hCid ∉ tgtH)
    (hsp : findSplit curH tgtH ≠ "")
    (hprep : prepareMerge s tCid (findSplit curH tgtH) =
      (s1, out1, .ok, conflicts))
    (hok : (mergeOp s target).oc = .ok) :
    (conflicts = [] →
      (∃ bl, dget (mergeOp s target).st.commits
          (mkCommitId hCid ("Merged " ++ target ++ " into " ++ currentBranch s)
            tCid) =
        some ⟨hCid, tCid,
          "Merged " ++ target ++ " into " ++ currentBranch s, bl⟩) ∧
      (mergeOp s target).out.getLast? =
        some ("Merged " ++ target ++ " into " ++ currentBranch s)) ∧
    (conflicts ≠ [] →
      (∃ bl, dget (mergeOp s target).st.commits
          (mkCommitId hCid
            ("Merged " ++ currentBranch s ++ " into " ++ target ++ ".")
            tCid) =
        some ⟨hCid, tCid,
          "Merged " ++ currentBranch s ++ " into " ++ target ++ ".", bl⟩) ∧
      (mergeOp s target).out.getLast? =
        some "Encountered a merge conflict.") := by
  have hpres : PresRefs s s1 := by
    have h := prepareMerge_pres s tCid (findSplit curH tgtH)
    rw [hprep] at h
    exact h
  have hhs1 : headCommitId s1 = some hCid := by
    rw [headCommitId_congr hpres.1 hpres.2.1, hh]
  have hcb1 : currentBranch s1 = currentBranch s := hpres.2.1
  have hM : mergeOp s target =
      (if conflicts ≠ [] then
        ⟨(mergeConflict s1 conflicts target).st,
          out1 ++ (mergeConflict s1 conflicts target).out,
          (mergeConflict s1 conflicts target).oc⟩
       else
        ⟨(newCommit s1 hCid
            ("Merged " ++ target ++ " into " ++ currentBranch s1) tCid).st,
          out1 ++ (newCommit s1 hCid
            ("Merged " ++ target ++ " into " ++ currentBranch s1) tCid).out ++
            (if (newCommit s1 hCid
                ("Merged " ++ target ++ " into " ++ currentBranch s1)
                tCid).oc = .ok then
              ["Merged " ++ target ++ " into " ++ currentBranch s1]
             else []),
          (newCommit s1 hCid
            ("Merged " ++ target ++ " into " ++ currentBranch s1) tCid).oc⟩) := by
    simp only [mergeOp, hv, hgb, hh, h1, h2, if_neg hanc, if_neg hff,
      if_neg hsp, hprep, hhs1]
  by_cases hc : conflicts = []
  · subst hc
    simp only [ne_eq, not_true_eq_false, if_false] at hM
    rw [hcb1] at hM
    rw [hM] at hok
    dsimp only at hok
    obtain ⟨bl, hbl, _, hout⟩ := newCommit_stores s1 hCid
      ("Merged " ++ target ++ " into " ++ currentBranch s) tCid hok
    refine ⟨fun _ => ?_, fun hne => absurd rfl hne⟩
    rw [hM]
    dsimp only
    refine ⟨⟨bl, hbl⟩, ?_⟩
    rw [hout, if_pos hok]
    simp only [List.append_nil]
    exact getLast_append_singleton _ _
  · simp only [if_pos hc] at hM
    refine ⟨fun he => absurd he hc, fun _ => ?_⟩
    rw [hM] at hok ⊢
    dsimp only at hok ⊢
    unfold mergeConflict at hok ⊢
    rw [getBranchHead_congr hpres.1, hgb] at hok ⊢
    dsimp only at hok ⊢
    cases heqB : getBlobs s1 tCid with
    | error e =>
        rw [heqB] at hok
        have := getBlobs_error heqB
        subst this
        simp at hok
    | ok tb =>
        rw [heqB] at hok
        dsimp only at hok ⊢
        rcases heqL : conflictLoop tb tCid s1 [] conflicts with ⟨s2, outs, oc2⟩
        have hp2 : PresRefs s s2 := by
          have h := conflictLoop_pres tb tCid conflicts s1 []
          rw [heqL] at h
          exact presRefs_trans hpres h
        have hcb2 : currentBranch s2 = currentBranch s := hp2.2.1
        have hhs2 : headCommitId s2 = some hCid := by
          rw [headCommitId_congr hp2.1 hp2.2.1, hh]
        have hgb2 : getBranchHead s2 target = .ok tCid := by
          rw [getBranchHead_congr hp2.1, hgb]
        cases oc2 with
        | ok =>
            rw [heqL] at hok
            dsimp only at hok ⊢
            rw [hcb2, hhs2] at hok ⊢
            dsimp only at hok ⊢
            rw [hgb2] at hok ⊢
            dsimp only at hok ⊢
            obtain ⟨bl, hbl, _, hout⟩ := newCommit_stores s2 hCid
              ("Merged " ++ currentBranch s ++ " into " ++ target ++ ".")
              tCid hok
            refine ⟨⟨bl, hbl⟩, ?_⟩
            rw [hout, if_pos hok]
            simp only [List.append_nil, ← List.append_assoc]
            exact getLast_append_singleton _ _
        | exit0 => rw [heqL] at hok; simp at hok
        | exit1 => rw [heqL] at hok; simp at hok
        | assertError => rw [heqL] at hok; simp at hok
        | nameError => rw [heqL] at hok; simp at hok
        | fileError => rw [heqL] at hok; simp at hok

theorem mergeOp_stConf_eval :
    mergeOp stConf "dev" =
      ⟨stConfFinal, ["Encountered a merge conflict."], .ok⟩ := by
  have e1 : splitLines (univNL "y\n") = ["y\n"] := by decide
  have e2 : splitLines (univNL "z\n") = ["z\n"] := by decide
  have h3 : writeConflict "c2" ["y\n"] ["z\n"] =
      [startDiff, "y\n", midDiff, "z\n", endDiff "c2"] := by
    simp [writeConflict]
  have hwc : String.join (writeConflict "c2" (splitLines (univNL "y\n"))
      (splitLines (univNL "z\n"))) = ctText := by
    rw [e1, e2, h3]
    decide
  have h1 : historyOf stConf "c1" = some ["c1", "r"] := by
    simp [historyOf, historyLoop, stConf, dget]
  have h2 : historyOf stConf "c2" = some ["c2", "r"] := by
    simp [historyOf, historyLoop, stConf, dget]
  have hml : mergeConflict stConf ["a.txt"] "dev" =
      ⟨stConfFinal, ["Encountered a merge conflict."], .ok⟩ := by
    simp [mergeConflict, conflictLoop, hwc, stConf, stConfFinal, dget, dinsert,
      dpop, add, newCommit, getBranchHead, getBlobs, loadCommit, headCommitId,
      currentBranch, updateBranchHead, Index.stage, Index.unstage,
      Index.isStaged, Index.clearAll, mkCommitId, Except.map, ctText]
  have hv : validateMerge stConf "dev" = .ok (false, []) := by rfl
  have hgb : getBranchHead stConf "dev" = .ok "c2" := by rfl
  have hh : headCommitId stConf = some "c1" := by rfl
  have hfs : findSplit ["c1", "r"] ["c2", "r"] = "r" := by decide
  have hprep : prepareMerge stConf "c2" "r" = (stConf, [], .ok, ["a.txt"]) := by
    rfl
  simp [mergeOp, hv, hgb, hh, h1, h2, hfs, hprep, hml]

/-- C3 counterexample: on the two-branch conflict scenario `stConf`
(current branch `main`, target `dev`), the merge succeeds, creates the
merge commit, but records the message `"Merged main into dev."` — current
and target swapped, with a trailing period — and prints only
`"Encountered a merge conflict."`; the message the claim requires,
`"Merged dev into main"`, is recorded nowhere. -/
theorem merge_conflict_message_swapped :
    (mergeOp stConf "dev").oc = .ok ∧
    (mergeOp stConf "dev").out = ["Encountered a merge conflict."] ∧
    dget (mergeOp stConf "dev").st.commits
        (mkCommitId "c1" "Merged main into dev." "c2") =
      some ⟨"c1", "c2", "Merged main into dev.", [("a.txt", ctText)]⟩ ∧
    dget (mergeOp stConf "dev").st.branches "main" =
      some (mkCommitId "c1" "Merged main into dev." "c2") ∧
    (∀ cid c, dget (mergeOp stConf "dev").st.commits cid = some c →
      c.message ≠ "Merged dev into main") := by
  rw [mergeOp_stConf_eval]
  refine ⟨rfl, rfl, by decide, by decide, ?_⟩
  intro cid c h
  simp only [stConfFinal, dget] at h
  split_ifs at h <;> cases h <;> decide

theorem merge_commit_message_witness :
    (∃ bl, dget (mergeOp stConf "dev").st.commits
        (mkCommitId "c1"
          ("Merged " ++ currentBranch stConf ++ " into " ++ "dev" ++ ".")
          "c2") =
      some ⟨"c1", "c2",
        "Merged " ++ currentBranch stConf ++ " into " ++ "dev" ++ ".", bl⟩) ∧
    (mergeOp stConf "dev").out.getLast? =
      some "Encountered a merge conflict." := by
  have h := merge_commit_message stConf "dev" "c2" "c1" ["c1", "r"]
    ["c2", "r"] stConf [] ["a.txt"] (by rfl) (by rfl) (by rfl)
    (by simp [historyOf, historyLoop, stConf, dget])
    (by simp [historyOf, historyLoop, stConf, dget])
    (by decide) (by decide) (by decide) (by rfl)
    (by rw [mergeOp_stConf_eval])
  exact h.2 (by decide)

theorem history_terminates_nodup_witness :
    (historyOf stMergeHist "m").isSome ∧
    (∀ l, historyOf stMergeHist "m" = some l → l.Nodup) := by
  constructor
  · apply history_terminates_nodup.2 stMergeHist "m"
    · intro id c h
      simp only [stMergeHist, dget] at h
      split_ifs at h with h1 h2 h3 h4 <;> cases h <;> decide
    · decide
  · intro l h
    exact history_terminates_nodup.1 stMergeHist "m" l h

end Gitlepy
